import Mathlib

/-!
# WCE Campus Assistant — verification of the indexing-and-retrieval spec

Shallow embedding of the WCE Campus Assistant repository.  The frontend
TypeScript sources (`frontend/app/chat/page.tsx`, `frontend/app/api/chat/route.ts`,
`frontend/app/components/ChatUI.tsx`, `frontend/app/components/FileUpload.tsx`)
are embedded directly from the source files.  The backend RAG engine
(`backend/api/rag/{splitter,vectordb,retriever,pipeline}.py`) is referenced by
the documentation but its code is not part of the source tree, so the engine is
modelled from the specification (each such definition carries a
`Modelled from the spec:` doc comment).

Texts are modelled as `List Char` (character sequences), floating-point
vectors and scores as `Rat`.
-/

set_option maxHeartbeats 1000000

namespace Rag

/-- Modelled from the spec: the splitter configuration
`(chunkSize, chunkOverlap)` consumed by the missing `splitter.py`. -/
structure SplitConfig where
  chunkSize : Nat
  chunkOverlap : Nat
deriving DecidableEq, Repr

/-- Modelled from the spec: a canonical `Document` (the fields the splitter
reads: the stable id and the text content, as a character sequence). -/
structure Document where
  id : String
  content : List Char
deriving DecidableEq, Repr

/-- Modelled from the spec: chunk ids.  `id = hash(documentId, chunkIndex)` is
required to be deterministic, stable, and collision-free between distinct
`(documentId, chunkIndex)` pairs, so the hash is modelled as the injective
pairing itself. -/
abbrev ChunkId := String × Nat

/-- Modelled from the spec: `hash(documentId, chunkIndex)`, the deterministic
chunk-id function. -/
def chunkHash (documentId : String) (chunkIndex : Nat) : ChunkId :=
  (documentId, chunkIndex)

/-- Modelled from the spec: a `Chunk` produced by the splitter. -/
structure Chunk where
  id : ChunkId
  documentId : String
  content : List Char
  chunkIndex : Nat
  charStart : Nat
  charEnd : Nat
deriving DecidableEq, Repr

/-- The chunk covering positions `[start, stop)` of document `d`. -/
def mkChunk (d : Document) (start stop idx : Nat) : Chunk :=
  { id := chunkHash d.id idx
    documentId := d.id
    content := (d.content.drop start).take (stop - start)
    chunkIndex := idx
    charStart := start
    charEnd := stop }

/-- Modelled from the spec: the splitter loop of the missing `splitter.py`.
Starting at character `start`, it emits the chunk `[start, min (start +
chunkSize) len)` and continues `chunkOverlap` characters before the previous
end, so consecutive chunks repeat `chunkOverlap` trailing/leading characters.
The recursive separator search (paragraph → line → sentence → word) only moves
cut points within the `chunkSize` budget and is abstracted away: boundaries
follow the character budget (the spec's hard-cut fallback), which is the case
every claim about boundary invariants exercises.  `fuel` is a structural bound
on the number of iterations; `split` supplies enough fuel for every valid
configuration (`chunkOverlap < chunkSize`). -/
def splitLoop (cfg : SplitConfig) (d : Document) : Nat → Nat → Nat → List Chunk
  | 0, _, _ => []
  | fuel + 1, start, idx =>
    if start < d.content.length then
      let stop := min (start + cfg.chunkSize) d.content.length
      if stop < d.content.length then
        mkChunk d start stop idx :: splitLoop cfg d fuel (stop - cfg.chunkOverlap) (idx + 1)
      else [mkChunk d start stop idx]
    else []

/-- Modelled from the spec: `split(document) → ordered sequence of Chunk`. -/
def split (cfg : SplitConfig) (d : Document) : List Chunk :=
  splitLoop cfg d (d.content.length + 1) 0 0

/-- Concatenation of a chunk list minus overlaps: from each chunk, the
characters already covered up to position `p` (the previous chunk's end) are
dropped before concatenating. -/
def trimFrom (p : Nat) : List Chunk → List Char
  | [] => []
  | c :: rest => c.content.drop (p - c.charStart) ++ trimFrom c.charEnd rest

/-- Concatenation of a document's chunks minus the overlaps. -/
def dedupConcat (cs : List Chunk) : List Char :=
  trimFrom 0 cs

theorem splitLoop_succ (cfg : SplitConfig) (d : Document) (fuel start idx : Nat) :
    splitLoop cfg d (fuel + 1) start idx =
      if start < d.content.length then
        if min (start + cfg.chunkSize) d.content.length < d.content.length then
          mkChunk d start (min (start + cfg.chunkSize) d.content.length) idx ::
            splitLoop cfg d fuel
              (min (start + cfg.chunkSize) d.content.length - cfg.chunkOverlap) (idx + 1)
        else [mkChunk d start (min (start + cfg.chunkSize) d.content.length) idx]
      else [] := rfl

/-- Every chunk the loop emits has the shape `mkChunk d charStart charEnd
chunkIndex` with `charEnd = min (charStart + chunkSize) len` and
`charStart < len`. -/
theorem splitLoop_mem (cfg : SplitConfig) (d : Document) :
    ∀ fuel start idx c, c ∈ splitLoop cfg d fuel start idx →
      c = mkChunk d c.charStart c.charEnd c.chunkIndex ∧
      c.charEnd = min (c.charStart + cfg.chunkSize) d.content.length ∧
      c.charStart < d.content.length := by
  intro fuel
  induction fuel with
  | zero => intro start idx c hc; simp [splitLoop] at hc
  | succ fuel ih =>
    intro start idx c hc
    rw [splitLoop_succ] at hc
    by_cases h1 : start < d.content.length
    · rw [if_pos h1] at hc
      by_cases h2 : min (start + cfg.chunkSize) d.content.length < d.content.length
      · rw [if_pos h2] at hc
        rcases List.mem_cons.1 hc with hc | hc
        · subst hc; exact ⟨rfl, rfl, h1⟩
        · exact ih _ _ _ hc
      · rw [if_neg h2] at hc
        rcases List.mem_singleton.1 hc with rfl
        exact ⟨rfl, rfl, h1⟩
    · rw [if_neg h1] at hc; simp at hc

/-- The chunk indices emitted by the loop are consecutive, starting at `idx`. -/
theorem splitLoop_chunkIndex (cfg : SplitConfig) (d : Document) :
    ∀ fuel start idx,
      (splitLoop cfg d fuel start idx).map (fun c => c.chunkIndex) =
        List.range' idx (splitLoop cfg d fuel start idx).length := by
  intro fuel
  induction fuel with
  | zero => intro start idx; simp [splitLoop]
  | succ fuel ih =>
    intro start idx
    rw [splitLoop_succ]
    by_cases h1 : start < d.content.length
    · rw [if_pos h1]
      by_cases h2 : min (start + cfg.chunkSize) d.content.length < d.content.length
      · rw [if_pos h2]
        simp only [List.map_cons, List.length_cons, List.range'_succ]
        exact congrArg (List.cons _) (ih _ _)
      · rw [if_neg h2]; rfl
    · rw [if_neg h1]; rfl

/-- With a valid configuration and enough fuel, the head chunk starts at
`start` and consecutive chunks satisfy `next.charStart = prev.charEnd -
chunkOverlap`; moreover the loop output is nonempty. -/
theorem splitLoop_chain (cfg : SplitConfig) (d : Document)
    (hov : cfg.chunkOverlap < cfg.chunkSize) :
    ∀ fuel start idx, start < d.content.length → d.content.length - start < fuel →
      (∀ c ∈ (splitLoop cfg d fuel start idx).head?, c.charStart = start) ∧
      (splitLoop cfg d fuel start idx) ≠ [] ∧
      List.Chain' (fun a b => b.charStart = a.charEnd - cfg.chunkOverlap)
        (splitLoop cfg d fuel start idx) := by
  intro fuel
  induction fuel with
  | zero => intro start idx h1 h2; omega
  | succ fuel ih =>
    intro start idx h1 h2
    rw [splitLoop_succ, if_pos h1]
    by_cases h3 : min (start + cfg.chunkSize) d.content.length < d.content.length
    · rw [if_pos h3]
      have hstop : min (start + cfg.chunkSize) d.content.length = start + cfg.chunkSize := by
        omega
      have h1' : min (start + cfg.chunkSize) d.content.length - cfg.chunkOverlap <
          d.content.length := by omega
      have h2' : d.content.length -
          (min (start + cfg.chunkSize) d.content.length - cfg.chunkOverlap) < fuel := by
        omega
      obtain ⟨hhead, hne, hchain⟩ := ih _ (idx + 1) h1' h2'
      refine ⟨by simp [mkChunk], by simp, ?_⟩
      rw [List.chain'_cons']
      refine ⟨?_, hchain⟩
      intro y hy
      have := hhead y hy
      simp [mkChunk, this]
    · rw [if_neg h3]
      exact ⟨by simp [mkChunk], by simp, by simp⟩

/-- Trimming a chunk list headed by `mkChunk d start stop idx` from position
`p ≥ start` keeps exactly the characters of `[p, stop)`. -/
theorem trimFrom_cons (d : Document) (start stop idx p : Nat) (rest : List Chunk)
    (h : start ≤ p) :
    trimFrom p (mkChunk d start stop idx :: rest) =
      (d.content.drop p).take (stop - p) ++ trimFrom stop rest := by
  simp only [trimFrom, mkChunk]
  rw [List.drop_take, List.drop_drop,
    show start + (p - start) = p from by omega,
    show stop - start - (p - start) = stop - p from by omega]

/-- Coverage: trimming the loop output from any position `p` inside the first
chunk reconstructs the document content from `p` on. -/
theorem splitLoop_trim (cfg : SplitConfig) (d : Document)
    (hov : cfg.chunkOverlap < cfg.chunkSize) :
    ∀ fuel start idx p, start < d.content.length → d.content.length - start < fuel →
      start ≤ p → p ≤ min (start + cfg.chunkSize) d.content.length →
      trimFrom p (splitLoop cfg d fuel start idx) = d.content.drop p := by
  intro fuel
  induction fuel with
  | zero => intro start idx p h1 h2; omega
  | succ fuel ih =>
    intro start idx p h1 h2 hp1 hp2
    rw [splitLoop_succ, if_pos h1]
    by_cases h3 : min (start + cfg.chunkSize) d.content.length < d.content.length
    · rw [if_pos h3]
      have hstop : min (start + cfg.chunkSize) d.content.length = start + cfg.chunkSize := by
        omega
      rw [hstop] at hp2 h3 ⊢
      rw [trimFrom_cons d start (start + cfg.chunkSize) idx p _ hp1]
      have h1' : start + cfg.chunkSize - cfg.chunkOverlap < d.content.length := by omega
      have h2' : d.content.length - (start + cfg.chunkSize - cfg.chunkOverlap) < fuel := by
        omega
      have hp1' : start + cfg.chunkSize - cfg.chunkOverlap ≤ start + cfg.chunkSize := by omega
      have hp2' : start + cfg.chunkSize ≤
          min ((start + cfg.chunkSize - cfg.chunkOverlap) + cfg.chunkSize) d.content.length := by
        omega
      rw [ih (start + cfg.chunkSize - cfg.chunkOverlap) (idx + 1) (start + cfg.chunkSize)
        h1' h2' hp1' hp2']
      have happ := List.drop_take_append_drop d.content p (start + cfg.chunkSize - p)
      rw [show p + (start + cfg.chunkSize - p) = start + cfg.chunkSize from by omega] at happ
      exact happ
    · rw [if_neg h3]
      have hstop : min (start + cfg.chunkSize) d.content.length = d.content.length := by omega
      rw [hstop] at hp2 ⊢
      rw [trimFrom_cons d start d.content.length idx p _ hp1]
      simp only [trimFrom, List.append_nil]
      rw [List.take_of_length_le (by simp)]

theorem split_def (cfg : SplitConfig) (d : Document) :
    split cfg d = splitLoop cfg d (d.content.length + 1) 0 0 := rfl

/-- An empty document splits into the empty chunk sequence. -/
theorem split_empty (cfg : SplitConfig) (d : Document) (h : d.content = []) :
    split cfg d = [] := by
  rw [split_def, splitLoop_succ]
  simp [h]

/-- A nonempty document no longer than `chunkSize` yields one chunk equal to
the whole document. -/
theorem split_short (cfg : SplitConfig) (d : Document) (h1 : d.content ≠ [])
    (h2 : d.content.length ≤ cfg.chunkSize) :
    split cfg d = [⟨chunkHash d.id 0, d.id, d.content, 0, 0, d.content.length⟩] := by
  have hlen : 0 < d.content.length := List.length_pos.2 h1
  rw [split_def, splitLoop_succ, if_pos hlen]
  have hmin : min (0 + cfg.chunkSize) d.content.length = d.content.length := by omega
  rw [hmin, if_neg (lt_irrefl _)]
  simp [mkChunk, List.take_of_length_le]

/-- Shared helper: the chunk indices of `split` are `0, 1, 2, …`. -/
theorem split_map_chunkIndex (cfg : SplitConfig) (d : Document) :
    (split cfg d).map (fun c => c.chunkIndex) = List.range (split cfg d).length := by
  rw [split_def, List.range_eq_range']
  exact splitLoop_chunkIndex cfg d _ 0 0

/-- Shared helper: the chunk ids of `split` are `hash(documentId, i)` for
`i = 0, 1, 2, …`. -/
theorem split_map_id (cfg : SplitConfig) (d : Document) :
    (split cfg d).map (fun c => c.id) =
      (List.range (split cfg d).length).map (chunkHash d.id) := by
  have hids : (split cfg d).map (fun c => c.id) =
      (split cfg d).map (fun c => chunkHash d.id c.chunkIndex) := by
    apply List.map_congr_left
    intro c hc
    obtain ⟨hshape, _, _⟩ := splitLoop_mem cfg d _ 0 0 c hc
    calc c.id = (mkChunk d c.charStart c.charEnd c.chunkIndex).id := by rw [← hshape]
      _ = chunkHash d.id c.chunkIndex := rfl
  rw [hids, ← split_map_chunkIndex cfg d, List.map_map]
  rfl

/-- **C1.** Splitting is deterministic: `split` is a pure function of the
configuration and the document (two runs agree definitionally), chunk indices
are `0, 1, 2, …` in order, and every chunk id equals
`hash(documentId, chunkIndex)`. -/
theorem split_deterministic_stable_ids (cfg : SplitConfig) (d : Document) :
    split cfg d = split cfg d ∧
    (split cfg d).map (fun c => c.chunkIndex) = List.range (split cfg d).length ∧
    (split cfg d).map (fun c => c.id) =
      (List.range (split cfg d).length).map (chunkHash d.id) :=
  ⟨rfl, split_map_chunkIndex cfg d, split_map_id cfg d⟩

/-- Shared helper: the full coverage invariant of `split` under a valid
configuration. -/
theorem split_invariants (cfg : SplitConfig) (d : Document)
    (hov : cfg.chunkOverlap < cfg.chunkSize) :
    (∀ c ∈ split cfg d, c.charStart < c.charEnd) ∧
    List.Chain'
      (fun a b => a.charEnd - b.charStart ≤ cfg.chunkOverlap ∧ b.charStart ≤ a.charEnd)
      (split cfg d) ∧
    dedupConcat (split cfg d) = d.content := by
  refine ⟨?_, ?_, ?_⟩
  · intro c hc
    rw [split_def] at hc
    obtain ⟨_, hend, hlt⟩ := splitLoop_mem cfg d _ 0 0 c hc
    omega
  · by_cases h0 : d.content = []
    · rw [split_empty cfg d h0]; simp
    · have hlen : 0 < d.content.length := List.length_pos.2 h0
      rw [split_def]
      have hch := (splitLoop_chain cfg d hov (d.content.length + 1) 0 0 hlen (by omega)).2.2
      refine List.Chain'.imp ?_ hch
      intro a b hab
      rw [hab]
      omega
  · by_cases h0 : d.content = []
    · rw [split_empty cfg d h0, h0]; rfl
    · have hlen : 0 < d.content.length := List.length_pos.2 h0
      show trimFrom 0 (split cfg d) = d.content
      rw [split_def,
        splitLoop_trim cfg d hov (d.content.length + 1) 0 0 0 hlen (by omega) le_rfl
          (by omega)]
      rfl

/-- **C3.** Chunk coverage invariant: with a valid configuration
(`chunkOverlap < chunkSize`), every chunk satisfies `charStart < charEnd`,
adjacent chunks overlap by at most `chunkOverlap` and leave no gap, and the
concatenation of the chunks minus the overlaps reconstructs the document. -/
theorem split_coverage (cfg : SplitConfig) (d : Document)
    (hov : cfg.chunkOverlap < cfg.chunkSize) :
    (∀ c ∈ split cfg d, c.charStart < c.charEnd) ∧
    List.Chain'
      (fun a b => a.charEnd - b.charStart ≤ cfg.chunkOverlap ∧ b.charStart ≤ a.charEnd)
      (split cfg d) ∧
    dedupConcat (split cfg d) = d.content :=
  split_invariants cfg d hov

/-- Witness for C3 at a concrete document and configuration. -/
theorem split_coverage_witness :
    dedupConcat (split ⟨5, 2⟩ ⟨"doc", ['a', 'b', 'c', 'd', 'e', 'f', 'g', 'h']⟩) =
      ['a', 'b', 'c', 'd', 'e', 'f', 'g', 'h'] :=
  (split_coverage ⟨5, 2⟩ ⟨"doc", ['a', 'b', 'c', 'd', 'e', 'f', 'g', 'h']⟩ (by decide)).2.2

/-- **C7.** Splitter edge cases: an empty document yields an empty chunk
sequence; a nonempty document no longer than `chunkSize` yields a single chunk
equal to the whole document; and with `chunkSize = 1000`, `overlap = 200`, a
2600-character document yields exactly 3 overlapping chunks
(`[0,1000), [800,1800), [1600,2600)`) covering the whole text. -/
theorem split_edge_cases (cfg : SplitConfig) (d : Document)
    (hov : cfg.chunkOverlap < cfg.chunkSize) :
    (d.content = [] → split cfg d = []) ∧
    (d.content ≠ [] → d.content.length ≤ cfg.chunkSize →
      split cfg d = [⟨chunkHash d.id 0, d.id, d.content, 0, 0, d.content.length⟩]) ∧
    (cfg.chunkSize = 1000 → cfg.chunkOverlap = 200 → d.content.length = 2600 →
      (split cfg d).map (fun c => (c.charStart, c.charEnd)) =
          [(0, 1000), (800, 1800), (1600, 2600)] ∧
      dedupConcat (split cfg d) = d.content) := by
  refine ⟨split_empty cfg d, split_short cfg d, ?_⟩
  intro hs ho hlen
  refine ⟨?_, (split_invariants cfg d hov).2.2⟩
  rw [split_def, splitLoop_succ, hs, ho, hlen]
  norm_num
  rw [show (2600 : Nat) = 2599 + 1 from rfl, splitLoop_succ, hs, ho, hlen]
  norm_num
  rw [show (2599 : Nat) = 2598 + 1 from rfl, splitLoop_succ, hs, ho, hlen]
  norm_num [mkChunk]

/-- Modelled from the spec: an entry of the persisted collection of the
missing `vectordb.py` — keyed by `chunk.id`, storing the vector and the chunk
(content and metadata). -/
structure StoredEntry where
  chunk : Chunk
  vector : List Rat
deriving DecidableEq, Repr

/-- Modelled from the spec: the `VectorStore` collection with its configured
embedding dimension. -/
structure VectorStore where
  dimension : Nat
  entries : List StoredEntry
deriving DecidableEq, Repr

/-- Modelled from the spec: the error raised when a vector's dimension
disagrees with the collection's configured dimension. -/
inductive UpsertError where
  | dimensionMismatch (got expected : Nat)
deriving DecidableEq, Repr

/-- Insert-or-replace keyed by `chunk.id`: the first entry with the same id is
replaced in place, otherwise the entry is appended. -/
def replaceOrAppend (e : StoredEntry) : List StoredEntry → List StoredEntry
  | [] => [e]
  | x :: xs => if x.chunk.id = e.chunk.id then e :: xs else x :: replaceOrAppend e xs

/-- First entry stored under a chunk id. -/
def findEntry (id : ChunkId) : List StoredEntry → Option StoredEntry
  | [] => none
  | x :: xs => if x.chunk.id = id then some x else findEntry id xs

/-- Number of entries stored under a chunk id. -/
def countId (id : ChunkId) (l : List StoredEntry) : Nat :=
  l.countP (fun x => decide (x.chunk.id = id))

/-- Modelled from the spec: `upsert(chunk, vector)` of the missing
`vectordb.py`.  A vector whose dimension disagrees with the collection's
configured dimension is a hard error and commits nothing; otherwise the entry
with the same `chunk.id` is replaced (or appended when absent).  The returned
pair is the resulting store together with the error, if any. -/
def upsert (s : VectorStore) (c : Chunk) (v : List Rat) :
    VectorStore × Option UpsertError :=
  if v.length = s.dimension then
    ({ s with entries := replaceOrAppend ⟨c, v⟩ s.entries }, none)
  else
    (s, some (.dimensionMismatch v.length s.dimension))

/-- One indexing step: upsert a chunk with its embedding, keeping the
resulting store. -/
def indexStep (embed : List Char → List Rat) (st : VectorStore) (c : Chunk) :
    VectorStore :=
  (upsert st c (embed c.content)).1

/-- Modelled from the spec: the incremental indexing entry point of the
missing `pipeline.py` — split the document and upsert every chunk with its
embedding (`embed` is the pluggable embedding backend). -/
def indexDocument (cfg : SplitConfig) (embed : List Char → List Rat)
    (s : VectorStore) (d : Document) : VectorStore :=
  (split cfg d).foldl (indexStep embed) s

theorem findEntry_replaceOrAppend_self (e : StoredEntry) :
    ∀ l, findEntry e.chunk.id (replaceOrAppend e l) = some e := by
  intro l
  induction l with
  | nil => simp [replaceOrAppend, findEntry]
  | cons x xs ih =>
    by_cases h : x.chunk.id = e.chunk.id
    · simp [replaceOrAppend, findEntry, h]
    · simp [replaceOrAppend, findEntry, h, ih]

theorem findEntry_replaceOrAppend_ne (e : StoredEntry) (id : ChunkId)
    (hne : id ≠ e.chunk.id) :
    ∀ l, findEntry id (replaceOrAppend e l) = findEntry id l := by
  intro l
  induction l with
  | nil =>
    simp only [replaceOrAppend, findEntry]
    rw [if_neg (fun hh : e.chunk.id = id => hne hh.symm)]
  | cons x xs ih =>
    by_cases h : x.chunk.id = e.chunk.id
    · rw [replaceOrAppend, if_pos h]
      simp only [findEntry]
      rw [if_neg (fun hh : e.chunk.id = id => hne hh.symm),
        if_neg (fun hh : x.chunk.id = id => hne (h.symm.trans hh).symm)]
    · rw [replaceOrAppend, if_neg h]
      simp only [findEntry]
      by_cases hx : x.chunk.id = id
      · rw [if_pos hx, if_pos hx]
      · rw [if_neg hx, if_neg hx, ih]

theorem replaceOrAppend_of_findEntry (e : StoredEntry) :
    ∀ l, findEntry e.chunk.id l = some e → replaceOrAppend e l = l := by
  intro l
  induction l with
  | nil => intro h; simp [findEntry] at h
  | cons x xs ih =>
    intro h
    by_cases hx : x.chunk.id = e.chunk.id
    · rw [findEntry, if_pos hx] at h
      rw [replaceOrAppend, if_pos hx, Option.some_inj.1 h]
    · rw [findEntry, if_neg hx] at h
      rw [replaceOrAppend, if_neg hx, ih h]

theorem upsert_dimension (s : VectorStore) (c : Chunk) (v : List Rat) :
    (upsert s c v).1.dimension = s.dimension := by
  unfold upsert
  split <;> rfl

theorem countId_replaceOrAppend (e : StoredEntry) :
    ∀ l, countId e.chunk.id (replaceOrAppend e l) ≤ max 1 (countId e.chunk.id l) := by
  intro l
  induction l with
  | nil => simp [replaceOrAppend, countId, List.countP_cons]
  | cons x xs ih =>
    by_cases h : x.chunk.id = e.chunk.id
    · rw [replaceOrAppend, if_pos h]
      simp [countId, List.countP_cons, h]
    · rw [replaceOrAppend, if_neg h]
      simp only [countId, List.countP_cons, decide_eq_true_eq, h, if_false] at ih ⊢
      omega

/-- `upsert` never creates a second entry for the same chunk id. -/
theorem upsert_no_duplicate (s : VectorStore) (c : Chunk) (v : List Rat) :
    countId c.id (upsert s c v).1.entries ≤ max 1 (countId c.id s.entries) := by
  unfold upsert
  split
  · exact countId_replaceOrAppend ⟨c, v⟩ s.entries
  · simp

/-- A repeated `upsert` with the same chunk id and vector replaces the prior
entry: the second call returns the same store and the same outcome. -/
theorem upsert_repeat (s : VectorStore) (c : Chunk) (v : List Rat) :
    upsert (upsert s c v).1 c v = upsert s c v := by
  by_cases hdim : v.length = s.dimension
  · have h1 : upsert s c v = ({ s with entries := replaceOrAppend ⟨c, v⟩ s.entries }, none) := by
      rw [upsert, if_pos hdim]
    rw [h1]
    show upsert { s with entries := replaceOrAppend ⟨c, v⟩ s.entries } c v = _
    rw [upsert, if_pos hdim]
    rw [replaceOrAppend_of_findEntry ⟨c, v⟩ _ (findEntry_replaceOrAppend_self ⟨c, v⟩ s.entries)]
  · have h1 : upsert s c v = (s, some (.dimensionMismatch v.length s.dimension)) := by
      rw [upsert, if_neg hdim]
    rw [h1]
    show upsert s c v = _
    rw [h1]

theorem indexStep_dimension (embed : List Char → List Rat) (st : VectorStore) (c : Chunk) :
    (indexStep embed st c).dimension = st.dimension :=
  upsert_dimension st c (embed c.content)

theorem foldl_indexStep_dimension (embed : List Char → List Rat) :
    ∀ (L : List Chunk) (s : VectorStore),
      (L.foldl (indexStep embed) s).dimension = s.dimension := by
  intro L
  induction L with
  | nil => intro s; rfl
  | cons c cs ih =>
    intro s
    rw [List.foldl_cons, ih, indexStep_dimension]

theorem findEntry_indexStep_ne (embed : List Char → List Rat) (st : VectorStore)
    (c : Chunk) (id : ChunkId) (hne : id ≠ c.id) :
    findEntry id (indexStep embed st c).entries = findEntry id st.entries := by
  unfold indexStep upsert
  split
  · exact findEntry_replaceOrAppend_ne ⟨c, embed c.content⟩ id hne st.entries
  · rfl

theorem findEntry_foldl_indexStep_ne (embed : List Char → List Rat) (id : ChunkId) :
    ∀ (L : List Chunk) (s : VectorStore), id ∉ L.map (fun c => c.id) →
      findEntry id (L.foldl (indexStep embed) s).entries = findEntry id s.entries := by
  intro L
  induction L with
  | nil => intro s _; rfl
  | cons c cs ih =>
    intro s hid
    rw [List.map_cons, List.mem_cons] at hid
    push_neg at hid
    rw [List.foldl_cons, ih _ hid.2, findEntry_indexStep_ne _ _ _ _ hid.1]

theorem findEntry_indexStep_self (embed : List Char → List Rat) (st : VectorStore)
    (c : Chunk) (hdim : (embed c.content).length = st.dimension) :
    findEntry c.id (indexStep embed st c).entries = some ⟨c, embed c.content⟩ := by
  unfold indexStep upsert
  rw [if_pos hdim]
  exact findEntry_replaceOrAppend_self ⟨c, embed c.content⟩ st.entries

/-- A step whose work is already reflected in the store is the identity. -/
theorem indexStep_stable (embed : List Char → List Rat) (st : VectorStore) (c : Chunk)
    (h : (embed c.content).length ≠ st.dimension ∨
      findEntry c.id st.entries = some ⟨c, embed c.content⟩) :
    indexStep embed st c = st := by
  rcases h with h | h
  · unfold indexStep upsert
    rw [if_neg h]
  · unfold indexStep upsert
    by_cases hdim : (embed c.content).length = st.dimension
    · rw [if_pos hdim]
      show ({ st with entries := replaceOrAppend ⟨c, embed c.content⟩ st.entries }) = st
      rw [replaceOrAppend_of_findEntry ⟨c, embed c.content⟩ st.entries h]
    · rw [if_neg hdim]

theorem foldl_indexStep_stable (embed : List Char → List Rat) :
    ∀ (L : List Chunk) (s : VectorStore), (∀ c ∈ L, indexStep embed s c = s) →
      L.foldl (indexStep embed) s = s := by
  intro L
  induction L with
  | nil => intro s _; rfl
  | cons c cs ih =>
    intro s hstable
    rw [List.foldl_cons, hstable c (List.mem_cons_self c cs)]
    exact ih s (fun c' hc' => hstable c' (List.mem_cons_of_mem c hc'))

/-- After one indexing pass over chunks with pairwise-distinct ids, every
chunk is either dimension-rejected or present with its embedding. -/
theorem foldl_indexStep_establishes (embed : List Char → List Rat) :
    ∀ (L : List Chunk) (s : VectorStore), (L.map (fun c => c.id)).Nodup →
      ∀ c ∈ L, (embed c.content).length ≠ s.dimension ∨
        findEntry c.id ((L.foldl (indexStep embed) s).entries) =
          some ⟨c, embed c.content⟩ := by
  intro L
  induction L with
  | nil => intro s _ c hc; simp at hc
  | cons x xs ih =>
    intro s hnodup c hc
    rw [List.map_cons, List.nodup_cons] at hnodup
    rw [List.foldl_cons]
    rcases List.mem_cons.1 hc with rfl | hc
    · by_cases hdim : (embed c.content).length = s.dimension
      · right
        rw [findEntry_foldl_indexStep_ne embed c.id xs (indexStep embed s c) hnodup.1,
          findEntry_indexStep_self embed s c hdim]
      · left; exact hdim
    · have := ih (indexStep embed s x) hnodup.2 c hc
      rcases this with h | h
      · left
        rw [indexStep_dimension] at h
        exact h
      · right; exact h

/-- Shared helper: the ids of a document's chunks are pairwise distinct. -/
theorem split_ids_nodup (cfg : SplitConfig) (d : Document) :
    ((split cfg d).map (fun c => c.id)).Nodup := by
  rw [split_map_id cfg d]
  exact (List.nodup_range _).map (fun i j h => congrArg Prod.snd h)

/-- Shared helper: re-indexing the same document is a no-op. -/
theorem indexDocument_idempotent (cfg : SplitConfig) (embed : List Char → List Rat)
    (s : VectorStore) (d : Document) :
    indexDocument cfg embed (indexDocument cfg embed s d) d =
      indexDocument cfg embed s d := by
  unfold indexDocument
  apply foldl_indexStep_stable
  intro c hc
  apply indexStep_stable
  rcases foldl_indexStep_establishes embed (split cfg d) s (split_ids_nodup cfg d) c hc with
    h | h
  · left
    rw [foldl_indexStep_dimension]
    exact h
  · right; exact h

/-- **C2.** Indexing is idempotent: indexing a document twice leaves the
`VectorStore` in exactly the state of indexing it once (same entries, same
count, same content); a repeated `upsert` with the same chunk id replaces the
prior entry and never creates a duplicate entry for that id. -/
theorem indexing_idempotent (cfg : SplitConfig) (embed : List Char → List Rat)
    (s : VectorStore) (d : Document) :
    indexDocument cfg embed (indexDocument cfg embed s d) d =
      indexDocument cfg embed s d ∧
    (∀ (s' : VectorStore) (c : Chunk) (v : List Rat),
      upsert (upsert s' c v).1 c v = upsert s' c v) ∧
    (∀ (s' : VectorStore) (c : Chunk) (v : List Rat),
      countId c.id (upsert s' c v).1.entries ≤ max 1 (countId c.id s'.entries)) ∧
    (∀ (s' : VectorStore) (c : Chunk) (v : List Rat),
      findEntry c.id (upsert s' c v).1.entries =
        if v.length = s'.dimension then some ⟨c, v⟩ else findEntry c.id s'.entries) :=
  ⟨indexDocument_idempotent cfg embed s d,
    fun s' c v => upsert_repeat s' c v,
    fun s' c v => upsert_no_duplicate s' c v,
    fun s' c v => by
      by_cases hdim : v.length = s'.dimension
      · rw [if_pos hdim, upsert, if_pos hdim]
        exact findEntry_replaceOrAppend_self ⟨c, v⟩ s'.entries
      · rw [if_neg hdim, upsert, if_neg hdim]⟩

/-- **C4.** Dimension-mismatch atomicity: an `upsert` whose vector dimension
disagrees with the collection's configured dimension fails with
`DimensionMismatchError` and leaves the collection unchanged. -/
theorem upsert_dimension_mismatch (s : VectorStore) (c : Chunk) (v : List Rat)
    (h : v.length ≠ s.dimension) :
    upsert s c v = (s, some (UpsertError.dimensionMismatch v.length s.dimension)) := by
  rw [upsert, if_neg h]

/-- Witness for C4: a 384-dimensional vector upserted into a collection
configured for 1024 dimensions fails and commits nothing. -/
theorem upsert_dimension_mismatch_witness :
    upsert ⟨1024, []⟩ ⟨("d", 0), "d", [], 0, 0, 0⟩ (List.replicate 384 0) =
      (⟨1024, []⟩, some (UpsertError.dimensionMismatch 384 1024)) := by
  have h : (List.replicate 384 (0 : Rat)).length ≠ (VectorStore.mk 1024 []).dimension := by
    rw [List.length_replicate]
    decide
  have := upsert_dimension_mismatch ⟨1024, []⟩ ⟨("d", 0), "d", [], 0, 0, 0⟩
    (List.replicate 384 0) h
  rw [this]
  rw [show (List.replicate 384 (0 : Rat)).length = 384 from List.length_replicate 384 0]

/-- Modelled from the spec: a transient `SearchResult` (chunk plus similarity
score; scores are modelled as rationals). -/
structure SearchResult where
  chunk : Chunk
  score : Rat
deriving DecidableEq, Repr

/-- The ranking order of the spec: descending score, ties broken by ascending
`chunkIndex`, then by `documentId`. -/
def resultLE (a b : SearchResult) : Prop :=
  b.score < a.score ∨
    (a.score = b.score ∧ (a.chunk.chunkIndex < b.chunk.chunkIndex ∨
      (a.chunk.chunkIndex = b.chunk.chunkIndex ∧
        a.chunk.documentId ≤ b.chunk.documentId)))

instance decResultLE : DecidableRel resultLE := fun a b => by
  unfold resultLE
  infer_instance

instance totalResultLE : IsTotal SearchResult resultLE := by
  constructor
  intro a b
  unfold resultLE
  rcases lt_trichotomy a.score b.score with h | h | h
  · exact Or.inr (Or.inl h)
  · rcases lt_trichotomy a.chunk.chunkIndex b.chunk.chunkIndex with hi | hi | hi
    · exact Or.inl (Or.inr ⟨h, Or.inl hi⟩)
    · rcases le_total a.chunk.documentId b.chunk.documentId with hd | hd
      · exact Or.inl (Or.inr ⟨h, Or.inr ⟨hi, hd⟩⟩)
      · exact Or.inr (Or.inr ⟨h.symm, Or.inr ⟨hi.symm, hd⟩⟩)
    · exact Or.inr (Or.inr ⟨h.symm, Or.inl hi⟩)
  · exact Or.inl (Or.inl h)

instance transResultLE : IsTrans SearchResult resultLE := by
  constructor
  intro a b c hab hbc
  unfold resultLE at hab hbc ⊢
  rcases hab with h1 | ⟨h1eq, h1t⟩
  · rcases hbc with h2 | ⟨h2eq, _⟩
    · exact Or.inl (h2.trans h1)
    · exact Or.inl (h2eq ▸ h1)
  · rcases hbc with h2 | ⟨h2eq, h2t⟩
    · exact Or.inl (lt_of_lt_of_le h2 (le_of_eq h1eq.symm))
    · refine Or.inr ⟨h1eq.trans h2eq, ?_⟩
      rcases h1t with hi1 | ⟨hi1, hd1⟩
      · rcases h2t with hi2 | ⟨hi2, _⟩
        · exact Or.inl (hi1.trans hi2)
        · exact Or.inl (hi2 ▸ hi1)
      · rcases h2t with hi2 | ⟨hi2, hd2⟩
        · exact Or.inl (hi1 ▸ hi2)
        · exact Or.inr ⟨hi1.trans hi2, hd1.trans hd2⟩

/-- Modelled from the spec: `search(queryVector, k)` of the missing
`vectordb.py` — score every stored entry with the similarity function `sim`
(cosine similarity abstracted as a parameter), rank by descending score with
the deterministic tiebreak, and return the top `k`. -/
def search (sim : List Rat → List Rat → Rat) (s : VectorStore) (qv : List Rat)
    (k : Nat) : List SearchResult :=
  (List.insertionSort resultLE
    (s.entries.map fun e => SearchResult.mk e.chunk (sim qv e.vector))).take k

/-- Modelled from the spec: the retriever configuration
`{topK, scoreThreshold, sourceDiversityCap, overfetchFactor}`. -/
structure RetrieverConfig where
  topK : Nat
  scoreThreshold : Rat
  sourceDiversityCap : Nat
  overfetchFactor : Nat
deriving DecidableEq, Repr

/-- Per-document admission counter used by the source-diversity cap. -/
def bumpSeen (docId : String) (seen : String → Nat) : String → Nat :=
  fun x => if x = docId then seen x + 1 else seen x

/-- Modelled from the spec: the source-diversity cap — keep at most `cap`
results per source document, preserving order. -/
def applyCap (cap : Nat) (seen : String → Nat) : List SearchResult → List SearchResult
  | [] => []
  | r :: rs =>
    if seen r.chunk.documentId < cap then
      r :: applyCap cap (bumpSeen r.chunk.documentId seen) rs
    else
      applyCap cap seen rs

/-- Modelled from the spec: `retrieve(queryText, …)` of the missing
`retriever.py` — embed the query, search with `k` inflated to
`topK * overfetchFactor`, drop every result with `score < scoreThreshold`,
apply the source-diversity cap, and truncate to `topK`. -/
def retrieve (sim : List Rat → List Rat → Rat) (embedQ : List Char → List Rat)
    (cfg : RetrieverConfig) (s : VectorStore) (q : List Char) : List SearchResult :=
  let raw := search sim s (embedQ q) (cfg.topK * cfg.overfetchFactor)
  let kept := raw.filter fun r => decide (cfg.scoreThreshold ≤ r.score)
  (applyCap cfg.sourceDiversityCap (fun _ => 0) kept).take cfg.topK

theorem applyCap_sublist (cap : Nat) :
    ∀ (l : List SearchResult) (seen : String → Nat),
      List.Sublist (applyCap cap seen l) l := by
  intro l
  induction l with
  | nil => intro seen; exact List.Sublist.refl []
  | cons r rs ih =>
    intro seen
    rw [applyCap]
    by_cases h : seen r.chunk.documentId < cap
    · rw [if_pos h]
      exact List.Sublist.cons₂ r (ih _)
    · rw [if_neg h]
      exact List.Sublist.cons r (ih _)

/-- **C5.** Retrieval ranking order: for every query and store state the
result sequence returned by `retrieve` is sorted by descending score, ties
broken by ascending `chunkIndex` then by `documentId`. -/
theorem retrieve_sorted (sim : List Rat → List Rat → Rat)
    (embedQ : List Char → List Rat) (cfg : RetrieverConfig) (s : VectorStore)
    (q : List Char) :
    List.Sorted resultLE (retrieve sim embedQ cfg s q) := by
  have h0 : List.Sorted resultLE
      (List.insertionSort resultLE
        (s.entries.map fun e => SearchResult.mk e.chunk (sim (embedQ q) e.vector))) :=
    List.sorted_insertionSort resultLE _
  have h1 : List.Sorted resultLE
      (search sim s (embedQ q) (cfg.topK * cfg.overfetchFactor)) :=
    List.Pairwise.sublist (List.take_sublist _ _) h0
  have h2 : List.Sorted resultLE
      ((search sim s (embedQ q) (cfg.topK * cfg.overfetchFactor)).filter
        fun r => decide (cfg.scoreThreshold ≤ r.score)) :=
    List.Pairwise.sublist (List.filter_sublist _) h1
  have h3 : List.Sorted resultLE
      (applyCap cfg.sourceDiversityCap (fun _ => 0)
        ((search sim s (embedQ q) (cfg.topK * cfg.overfetchFactor)).filter
          fun r => decide (cfg.scoreThreshold ≤ r.score))) :=
    List.Pairwise.sublist (applyCap_sublist cfg.sourceDiversityCap _ _) h2
  exact List.Pairwise.sublist (List.take_sublist _ _) h3

theorem bumpSeen_comm (d1 d2 : String) (seen : String → Nat) :
    bumpSeen d1 (bumpSeen d2 seen) = bumpSeen d2 (bumpSeen d1 seen) := by
  funext x
  unfold bumpSeen
  split_ifs <;> rfl

theorem applyCap_length_bump (cap : Nat) :
    ∀ (l : List SearchResult) (seen : String → Nat) (d : String),
      (applyCap cap (bumpSeen d seen) l).length ≤ (applyCap cap seen l).length := by
  intro l
  induction l with
  | nil => intro seen d; exact le_rfl
  | cons r rs ih =>
    intro seen d
    by_cases hd : r.chunk.documentId = d
    · have hb : bumpSeen d seen r.chunk.documentId = seen r.chunk.documentId + 1 := by
        unfold bumpSeen
        rw [if_pos hd]
      rw [applyCap, applyCap, hb]
      by_cases h1 : seen r.chunk.documentId + 1 < cap
      · have h2 : seen r.chunk.documentId < cap := by omega
        rw [if_pos h1, if_pos h2, hd]
        exact Nat.succ_le_succ (ih (bumpSeen d seen) d)
      · by_cases h2 : seen r.chunk.documentId < cap
        · rw [if_neg h1, if_pos h2, hd]
          simp only [List.length_cons]
          omega
        · rw [if_neg h1, if_neg h2]
          exact ih seen d
    · have hb : bumpSeen d seen r.chunk.documentId = seen r.chunk.documentId := by
        unfold bumpSeen
        rw [if_neg hd]
      rw [applyCap, applyCap, hb]
      by_cases h1 : seen r.chunk.documentId < cap
      · rw [if_pos h1, if_pos h1, bumpSeen_comm]
        exact Nat.succ_le_succ (ih (bumpSeen r.chunk.documentId seen) d)
      · rw [if_neg h1, if_neg h1]
        exact ih seen d

theorem applyCap_length_le_bump_succ (cap : Nat) :
    ∀ (l : List SearchResult) (seen : String → Nat) (d : String),
      (applyCap cap seen l).length ≤ (applyCap cap (bumpSeen d seen) l).length + 1 := by
  intro l
  induction l with
  | nil => intro seen d; simp [applyCap]
  | cons r rs ih =>
    intro seen d
    by_cases hd : r.chunk.documentId = d
    · have hb : bumpSeen d seen r.chunk.documentId = seen r.chunk.documentId + 1 := by
        unfold bumpSeen
        rw [if_pos hd]
      rw [applyCap, applyCap, hb]
      by_cases h1 : seen r.chunk.documentId + 1 < cap
      · have h2 : seen r.chunk.documentId < cap := by omega
        rw [if_pos h1, if_pos h2, hd]
        simp only [List.length_cons]
        have := ih (bumpSeen d seen) d
        omega
      · by_cases h2 : seen r.chunk.documentId < cap
        · rw [if_neg h1, if_pos h2, hd]
          simp only [List.length_cons]
          exact le_rfl
        · rw [if_neg h1, if_neg h2]
          exact ih seen d
    · have hb : bumpSeen d seen r.chunk.documentId = seen r.chunk.documentId := by
        unfold bumpSeen
        rw [if_neg hd]
      rw [applyCap, applyCap, hb]
      by_cases h1 : seen r.chunk.documentId < cap
      · rw [if_pos h1, if_pos h1, bumpSeen_comm]
        simp only [List.length_cons]
        have := ih (bumpSeen r.chunk.documentId seen) d
        omega
      · rw [if_neg h1, if_neg h1]
        exact ih seen d

/-- Dropping inputs (a sublist) can only shrink the capped result list. -/
theorem applyCap_length_sublist (cap : Nat) {l' l : List SearchResult}
    (hsub : List.Sublist l' l) :
    ∀ seen : String → Nat, (applyCap cap seen l').length ≤ (applyCap cap seen l).length := by
  induction hsub with
  | slnil => intro seen; exact le_rfl
  | @cons l1 l2 r hsub ih =>
    intro seen
    rw [applyCap]
    by_cases h1 : seen r.chunk.documentId < cap
    · rw [if_pos h1]
      simp only [List.length_cons]
      have h2 := ih seen
      have h3 := applyCap_length_le_bump_succ cap l2 seen r.chunk.documentId
      omega
    · rw [if_neg h1]
      exact ih seen
  | @cons₂ l1 l2 r hsub ih =>
    intro seen
    rw [applyCap, applyCap]
    by_cases h1 : seen r.chunk.documentId < cap
    · rw [if_pos h1, if_pos h1]
      exact Nat.succ_le_succ (ih _)
    · rw [if_neg h1, if_neg h1]
      exact ih seen

/-- **C6.** Threshold monotonicity: for a fixed query and store, raising the
score threshold never increases the number of results `retrieve` returns,
because every result with `score < scoreThreshold` is dropped. -/
theorem retrieve_threshold_monotone (sim : List Rat → List Rat → Rat)
    (embedQ : List Char → List Rat) (topK : Nat) (t1 t2 : Rat) (capN ov : Nat)
    (s : VectorStore) (q : List Char) (h : t1 ≤ t2) :
    (retrieve sim embedQ ⟨topK, t2, capN, ov⟩ s q).length ≤
      (retrieve sim embedQ ⟨topK, t1, capN, ov⟩ s q).length := by
  have hsub : List.Sublist
      ((search sim s (embedQ q) (topK * ov)).filter fun r => decide (t2 ≤ r.score))
      ((search sim s (embedQ q) (topK * ov)).filter fun r => decide (t1 ≤ r.score)) := by
    apply List.monotone_filter_right
    intro a ha
    simp only [decide_eq_true_eq] at ha ⊢
    exact le_trans h ha
  have hcap := applyCap_length_sublist capN hsub (fun _ => 0)
  unfold retrieve
  dsimp only
  rw [List.length_take, List.length_take]
  omega

/-- Witness for C6 at a concrete query, store and threshold pair. -/
theorem retrieve_threshold_monotone_witness :
    (retrieve (fun _ _ => 1) (fun _ => []) ⟨5, 1, 2, 3⟩ ⟨4, []⟩ []).length ≤
      (retrieve (fun _ _ => 1) (fun _ => []) ⟨5, 0, 2, 3⟩ ⟨4, []⟩ []).length :=
  retrieve_threshold_monotone (fun _ _ => 1) (fun _ => []) 5 0 1 2 3 ⟨4, []⟩ []
    (by norm_num)

/-- Witness for C7 at a concrete 2600-character document. -/
theorem split_edge_cases_witness :
    (split ⟨1000, 200⟩ ⟨"doc", List.replicate 2600 'a'⟩).map
        (fun c => (c.charStart, c.charEnd)) = [(0, 1000), (800, 1800), (1600, 2600)] :=
  ((split_edge_cases ⟨1000, 200⟩ ⟨"doc", List.replicate 2600 'a'⟩ (by decide)).2.2
    rfl rfl (List.length_replicate 2600 'a')).1

end Rag

namespace ChatRoute

/-!
Embedding of `frontend/app/api/chat/route.ts`: the chat proxy forwards the
request body to the backend `/chat/` endpoint inside a `try` block; a non-ok
response is turned into a thrown error, and the `catch` handler answers with
HTTP status 500 and a body carrying an apology message, empty `sources`,
empty `tool_calls`, and `error: true`.
-/

/-- The JSON body of a chat response as the proxy handles it. -/
structure ChatData where
  response : String
  sources : List String
  tool_calls : List String
  error : Bool
deriving DecidableEq, Repr

/-- Outcome of the proxy's interaction with the backend: either some step of
the `try` block threw (request-body parse, `fetch`, or response-body parse),
or the backend replied with a parsed body and an `ok` flag. -/
inductive FetchOutcome where
  | threw
  | replied (ok : Bool) (status : Nat) (data : ChatData)
deriving DecidableEq, Repr

/-- The body built by the `catch` handler of the POST route. -/
def chatErrorBody : ChatData :=
  { response := "Sorry, there was an error connecting to the backend. Please make sure the server is running."
    sources := []
    tool_calls := []
    error := true }

/-- An HTTP response of the proxy: status code and JSON body. -/
structure ProxyResponse where
  status : Nat
  body : ChatData
deriving DecidableEq, Repr

/-- The POST handler of `route.ts` as a function of the backend interaction
outcome: a non-ok backend response throws (`Backend returned …`) and every
throw is caught and answered with status 500 and `chatErrorBody`; an ok
response is passed through with status 200. -/
def POST (o : FetchOutcome) : ProxyResponse :=
  match o with
  | .threw => ⟨500, chatErrorBody⟩
  | .replied ok _ data => if ok then ⟨200, data⟩ else ⟨500, chatErrorBody⟩

/-- The query failed to reach the backing store: the fetch threw or the
backend returned non-ok. -/
def failsToReach (o : FetchOutcome) : Prop :=
  o = .threw ∨ ∃ st d, o = .replied false st d

/-- **C8.** Failed-query visibility: whenever the query fails to reach the
backing store, the caller receives status 500 with `error: true` and a
non-empty explanatory message alongside empty sources — never a bare empty
result set. -/
theorem failed_query_visible (o : FetchOutcome) (h : failsToReach o) :
    (POST o).status = 500 ∧ (POST o).body.error = true ∧
    (POST o).body.sources = [] ∧ (POST o).body.response ≠ "" := by
  have hmsg : chatErrorBody.response ≠ "" := by decide
  rcases h with rfl | ⟨st, d, rfl⟩
  · exact ⟨rfl, rfl, rfl, hmsg⟩
  · exact ⟨rfl, rfl, rfl, hmsg⟩

/-- Witness for C8 at the concrete outcome where the fetch threw. -/
theorem failed_query_visible_witness :
    (POST .threw).status = 500 ∧ (POST .threw).body.error = true ∧
    (POST .threw).body.sources = [] ∧ (POST .threw).body.response ≠ "" :=
  failed_query_visible .threw (Or.inl rfl)

end ChatRoute

namespace FileUpload

/-!
Embedding of `frontend/app/components/FileUpload.tsx`: the drag-drop and
file-select handlers admit a file only when `isValidFile` accepts it, and the
submit handler calls `onUpload(selectedFile, category)` only when a file is
selected.
-/

/-- A browser `File` as the component reads it (only `name` is inspected). -/
structure File where
  name : String
deriving DecidableEq, Repr

/-- The extension whitelist of `FileUpload.tsx`. -/
def validExtensions : List String := [".pdf", ".csv", ".txt", ".md"]

/-- `isValidFile` from `FileUpload.tsx`: `'.' +
file.name.split('.').pop()?.toLowerCase()` must be in the whitelist. -/
def isValidFile (f : File) : Bool :=
  let ext := "." ++ ((f.name.splitOn ".").getLastD "").toLower
  validExtensions.contains ext

/-- The component state the handlers touch. -/
structure FileUploadState where
  selectedFile : Option File
  category : String
  isDragging : Bool
deriving DecidableEq, Repr

/-- `handleDrop`: take the first dropped file; set it as selected only if it
is valid; always clear the dragging flag. -/
def handleDrop (dropped : List File) (st : FileUploadState) : FileUploadState :=
  let st' := { st with isDragging := false }
  match dropped.head? with
  | some f => if isValidFile f then { st' with selectedFile := some f } else st'
  | none => st'

/-- `handleFileSelect`: take the first file of the input element; set it as
selected only if it is valid. -/
def handleFileSelect (files : List File) (st : FileUploadState) : FileUploadState :=
  match files.head? with
  | some f => if isValidFile f then { st with selectedFile := some f } else st
  | none => st

/-- `handleSubmit` of `FileUpload.tsx`: invoke `onUpload(selectedFile,
category)` exactly when a file is selected. -/
def handleSubmit (st : FileUploadState) : Option (File × String) :=
  match st.selectedFile with
  | some f => some (f, st.category)
  | none => none

/-- **C9.** Upload extension whitelist: `isValidFile` accepts exactly the
files whose lower-cased final dot-extension is `.pdf`, `.csv`, `.txt` or
`.md`; drag-drop and file-select never select an invalid file; and the upload
callback is invoked exactly when a selected file exists. -/
theorem upload_whitelist :
    (∀ f : File, isValidFile f = true ↔
      ("." ++ ((f.name.splitOn ".").getLastD "").toLower) ∈
        [".pdf", ".csv", ".txt", ".md"]) ∧
    (∀ (dropped : List File) (st : FileUploadState),
      (handleDrop dropped st).selectedFile = st.selectedFile ∨
      ∃ f, dropped.head? = some f ∧ isValidFile f = true ∧
        (handleDrop dropped st).selectedFile = some f) ∧
    (∀ (files : List File) (st : FileUploadState),
      (handleFileSelect files st).selectedFile = st.selectedFile ∨
      ∃ f, files.head? = some f ∧ isValidFile f = true ∧
        (handleFileSelect files st).selectedFile = some f) ∧
    (∀ st : FileUploadState,
      handleSubmit st = st.selectedFile.map fun f => (f, st.category)) := by
  refine ⟨?_, ?_, ?_, ?_⟩
  · intro f
    simp [isValidFile, validExtensions]
  · intro dropped st
    cases hh : dropped.head? with
    | none => left; simp [handleDrop, hh]
    | some f =>
      by_cases hv : isValidFile f
      · exact Or.inr ⟨f, rfl, hv, by simp [handleDrop, hh, hv]⟩
      · left
        simp [handleDrop, hh, hv]
  · intro files st
    cases hh : files.head? with
    | none => left; simp [handleFileSelect, hh]
    | some f =>
      by_cases hv : isValidFile f
      · exact Or.inr ⟨f, rfl, hv, by simp [handleFileSelect, hh, hv]⟩
      · left
        simp [handleFileSelect, hh, hv]
  · intro st
    cases hsel : st.selectedFile <;> simp [handleSubmit, hsel]

end FileUpload

namespace ChatUI

/-!
Embedding of `frontend/app/components/ChatUI.tsx`: the chat submit handler
sends `input.trim()` through `onSendMessage` only when the trimmed input is
non-empty and no request is in flight, then clears the input field.
-/

/-- `handleSubmit` of `ChatUI.tsx` as a function of the input string and the
loading flag: the first component is the message passed to `onSendMessage`
(if any), the second the input field afterwards. -/
def handleSubmit (input : String) (isLoading : Bool) : Option String × String :=
  if input.trim ≠ "" ∧ isLoading = false then (some input.trim, "") else (none, input)

/-- **C10.** Non-empty query guarantee: `handleSubmit` invokes
`onSendMessage` exactly when the trimmed input is non-empty and no request is
loading, the message sent is exactly `input.trim()`, and an empty message is
never sent. -/
theorem no_empty_query (s : String) (b : Bool) :
    ((handleSubmit s b).1 = some s.trim ↔ (s.trim ≠ "" ∧ b = false)) ∧
    ((handleSubmit s b).1 = none ∨ (handleSubmit s b).1 = some s.trim) ∧
    (handleSubmit s b).1 ≠ some "" := by
  unfold handleSubmit
  by_cases h : s.trim ≠ "" ∧ b = false
  · rw [if_pos h]
    refine ⟨⟨fun _ => h, fun _ => rfl⟩, Or.inr rfl, ?_⟩
    intro hcontra
    exact h.1 (Option.some_inj.1 hcontra)
  · rw [if_neg h]
    exact ⟨⟨fun hcontra => by simp at hcontra, fun hh => absurd hh h⟩,
      Or.inl rfl, by simp⟩

end ChatUI
